import Mathlib

/-!
Verification of the VIC UDP preview tools: a shallow embedding of the two
Python drivers `src/tools/vic_preview_live.py` (live UDP monitor printing the
middle scanline) and `src/tools/vic_preview.py` (replay of a packet capture
printing all four scanlines of each packet), together with proofs of the
decoding, selection and rendering properties stated in the design document.

Byte strings are modelled as `List Nat` with each element in `[0, 255]`;
printing to standard output is modelled by returning the list of glyphs that
would be printed (one `List Char` per printed text line).
-/

namespace VicPreview

/-- VIC color palette, one display glyph per 4-bit color index.  The same
16-entry list appears in both `src/tools/vic_preview_live.py` (lines 6-9) and
`src/tools/vic_preview.py` (lines 5-22). -/
def vic_colors : List Char :=
  [' ', '.', 'R', 'C', 'P', 'G', 'B', 'Y', 'O', 'N', 'r', 'g', 'm', 'l', 'L', 'E']

/-- Total display height in scanlines (`vic_preview_live.py` line 14). -/
def SCREEN_HEIGHT : Nat := 272

/-- Target scanline of the live monitor: `SCREEN_HEIGHT // 2`
(`vic_preview_live.py` line 15). -/
def MIDDLE_LINE : Nat := SCREEN_HEIGHT / 2

/-- Bytes per scanline in the live driver: `384 // 2`, 384 pixels at 2 pixels
per byte (`vic_preview_live.py` line 16). -/
def BYTES_PER_LINE : Nat := 384 / 2

/-- Scanlines carried by one packet (`vic_preview_live.py` line 17). -/
def LINES_PER_PACKET : Nat := 4

/-- Expand one payload byte into its two color indices, high nibble first:
`[b >> 4, b & 0xF]`.  This is the loop body shared by both drivers
(`vic_preview_live.py` lines 39-41, `vic_preview.py` lines 33-36). -/
def decodeByte (b : Nat) : List Nat := [b >>> 4, b &&& 0xF]

/-- Palette lookup `vic_colors[i]`.  In the Python sources the index is always
a nibble of a byte, hence in range; the default `' '` branch is unreachable
for byte input. -/
def glyph (i : Nat) : Char := vic_colors.getD i ' '

/-- Render a sequence of color indices as display glyphs (the `vic_colors`
lookups performed while building `line_pixels` in both drivers). -/
def render (colorIndices : List Nat) : List Char := colorIndices.map glyph

/-- Header decoding, factored from `print_middle_line`
(`vic_preview_live.py` lines 21-25): fail for payloads shorter than the
12-byte header, otherwise take `payload[4] + (payload[5] << 8)` — the
little-endian 16-bit value at offsets 4-5 — masked to 15 bits. -/
def decodeHeader (payload : List Nat) : Option Nat :=
  if payload.length < 12 then none
  else some ((payload.getD 4 0 + (payload.getD 5 0 <<< 8)) &&& 0x7FFF)

/-- Line selection, factored from `vic_preview_live.py` lines 28-29 with the
hard-coded `MIDDLE_LINE` generalized to a `targetLine` parameter: when
`line_num <= target < line_num + LINES_PER_PACKET`, the in-packet index is
`target - line_num`. -/
def selectLine (startLine targetLine : Nat) : Option Nat :=
  if startLine ≤ targetLine ∧ targetLine < startLine + LINES_PER_PACKET then
    some (targetLine - startLine)
  else none

/-- Single-line pixel decoding, factored from `vic_preview_live.py`
lines 31-41: `start = lineIndex * BYTES_PER_LINE`,
`end = start + BYTES_PER_LINE`; `none` (the InsufficientData condition) when
`end` exceeds the pixel payload length, otherwise the nibble expansion of
`pixel_data[start:end]`. -/
def decodePixelLine (pixelPayload : List Nat) (lineIndex : Nat) : Option (List Nat) :=
  if lineIndex * BYTES_PER_LINE + BYTES_PER_LINE > pixelPayload.length then none
  else
    some (((pixelPayload.drop (lineIndex * BYTES_PER_LINE)).take BYTES_PER_LINE).flatMap decodeByte)

/-- The whole of `print_middle_line` (`vic_preview_live.py` lines 19-43).
The single `print` of the joined glyph list is modelled as returning
`some line`; each early `return` is `none`. -/
def print_middle_line (payload : List Nat) : Option (List Char) :=
  if payload.length < 12 then none
  else
    let line_num := (payload.getD 4 0 + (payload.getD 5 0 <<< 8)) &&& 0x7FFF
    if line_num ≤ MIDDLE_LINE ∧ MIDDLE_LINE < line_num + LINES_PER_PACKET then
      let line_index := MIDDLE_LINE - line_num
      let pixel_data := payload.drop 12
      if line_index * BYTES_PER_LINE + BYTES_PER_LINE > pixel_data.length then none
      else
        some ((((pixel_data.drop (line_index * BYTES_PER_LINE)).take BYTES_PER_LINE).flatMap
          decodeByte).map glyph)
    else none

/-- The whole of `print_packet` (`vic_preview.py` lines 24-37), one returned
glyph list per printed text line: `pixel_data = payload[12:]`, and for
`line in range(4)` the nibble expansion of the Python slice
`pixel_data[line*96:(line+1)*96]`, which silently truncates when the payload
is short. -/
def print_packet (payload : List Nat) : List (List Char) :=
  (List.range 4).map fun line =>
    ((((payload.drop 12).drop (line * 96)).take 96).flatMap decodeByte).map glyph

/-- Per-datagram step of the live main loop (`vic_preview_live.py`
lines 58-60): datagrams shorter than 12 bytes are dropped before
`print_middle_line` runs. -/
def live_handle (payload : List Nat) : Option (List Char) :=
  if 12 ≤ payload.length then print_middle_line payload else none

/-- Per-datagram step of the replay main loop (`vic_preview.py` lines 49-51):
UDP payloads shorter than 12 bytes are skipped, the rest go to
`print_packet`. -/
def replay_handle (payload : List Nat) : Option (List (List Char)) :=
  if 12 ≤ payload.length then some (print_packet payload) else none

/-- Color indices the live driver extracts for in-packet line `i`: the nibble
expansion of `pixel_data[i*BYTES_PER_LINE : (i+1)*BYTES_PER_LINE]`
(`vic_preview_live.py` lines 31-41, before the palette lookup). -/
def liveLineColors (pixel_data : List Nat) (i : Nat) : List Nat :=
  ((pixel_data.drop (i * BYTES_PER_LINE)).take BYTES_PER_LINE).flatMap decodeByte

/-- Color indices the replay driver extracts for in-packet line `i`: the
nibble expansion of the slice `pixel_data[i*96:(i+1)*96]`
(`vic_preview.py` lines 30-36). -/
def replayLineColors (pixel_data : List Nat) (i : Nat) : List Nat :=
  ((pixel_data.drop (i * 96)).take 96).flatMap decodeByte

/-- Nibble-packing encoder used to state the round-trip property of the
design document (§8): consecutive pairs of color indices become one byte,
first index in the high nibble.  This is the test-fixture construction named
by the specification, not repository code. -/
def encodePixels : List Nat → List Nat
  | [] => []
  | [_] => []
  | a :: b :: rest => ((a <<< 4) ||| b) :: encodePixels rest

/-- Pixel payload long enough to contain in-packet line 1 under both per-line
byte widths: bytes 0-95 are 0, bytes 96-191 are 1, bytes 192-383 are 2. -/
def c4pixels : List Nat :=
  List.replicate 96 0 ++ List.replicate 96 1 ++ List.replicate 192 2

theorem add_shiftLeft_eq_lor (a b : Nat) (h : a < 256) :
    a + (b <<< 8) = a ||| (b <<< 8) := by
  have hs : b <<< 8 = 2 ^ 8 * b := by
    rw [Nat.shiftLeft_eq, Nat.mul_comm]
  rw [hs, Nat.add_comm, Nat.mul_add_lt_is_or h b, Nat.lor_comm]

theorem glyph_mem (i : Nat) : glyph i ∈ vic_colors := by
  unfold glyph
  rcases Nat.lt_or_ge i vic_colors.length with hi | hi
  · rw [List.getD_eq_getElem _ _ hi]
    exact List.getElem_mem hi
  · rw [List.getD_eq_default _ _ hi]
    decide

theorem flatMap_decodeByte_length (bs : List Nat) :
    (bs.flatMap decodeByte).length = 2 * bs.length := by
  induction bs with
  | nil => rfl
  | cons b rest ih =>
    simp [List.flatMap_cons, decodeByte, ih]
    omega

theorem flatMap_decodeByte_getD (bs : List Nat) :
    ∀ j, j < bs.length →
      (bs.flatMap decodeByte).getD (2 * j) 0 = bs.getD j 0 >>> 4 ∧
      (bs.flatMap decodeByte).getD (2 * j + 1) 0 = bs.getD j 0 &&& 0xF := by
  induction bs with
  | nil => intro j hj; simp at hj
  | cons b rest ih =>
    intro j hj
    cases j with
    | zero => simp [List.flatMap_cons, decodeByte]
    | succ j =>
      have h2 : 2 * (j + 1) = 2 * j + 1 + 1 := by omega
      rw [h2]
      simp only [List.flatMap_cons, decodeByte, List.cons_append, List.nil_append,
        List.getD_cons_succ]
      exact ih j (by simpa using hj)

theorem getD_drop_take (l : List Nat) (s n j : Nat) (hj : j < n)
    (hle : s + n ≤ l.length) :
    ((l.drop s).take n).getD j 0 = l.getD (s + j) 0 := by
  have hlen : ((l.drop s).take n).length = n := by
    simp [List.length_take, List.length_drop]
    omega
  have hj' : j < ((l.drop s).take n).length := by omega
  have hsj : s + j < l.length := by omega
  rw [List.getD_eq_getElem _ _ hj', List.getD_eq_getElem _ _ hsj]
  rw [List.getElem_take, List.getElem_drop]

theorem nibble_pack_unpack : ∀ a < 16, ∀ b < 16, decodeByte ((a <<< 4) ||| b) = [a, b] := by
  decide

theorem encodePixels_length : ∀ cs : List Nat, (encodePixels cs).length = cs.length / 2
  | [] => rfl
  | [_] => by simp [encodePixels]
  | _ :: _ :: rest => by
    simp only [encodePixels, List.length_cons, encodePixels_length rest]
    omega

theorem encodePixels_drop : ∀ (cs : List Nat) (k : Nat),
    (encodePixels cs).drop k = encodePixels (cs.drop (2 * k))
  | [], k => by simp [encodePixels]
  | [a], k => by
    cases k with
    | zero => simp
    | succ k =>
      have h1 : (encodePixels [a]).drop (k + 1) = [] := by simp [encodePixels]
      have h2 : ([a] : List Nat).drop (2 * (k + 1)) = [] := by
        apply List.drop_eq_nil_of_le
        simp
        omega
      rw [h1, h2]
      rfl
  | a :: b :: rest, k => by
    cases k with
    | zero => simp
    | succ k =>
      have h2 : 2 * (k + 1) = 2 * k + 1 + 1 := by omega
      rw [h2]
      simp only [encodePixels, List.drop_succ_cons]
      exact encodePixels_drop rest k

theorem encodePixels_take : ∀ (cs : List Nat) (k : Nat),
    (encodePixels cs).take k = encodePixels (cs.take (2 * k))
  | [], k => by simp [encodePixels]
  | [a], k => by
    cases k with
    | zero => rfl
    | succ k =>
      have h1 : (encodePixels [a]).take (k + 1) = [] := by simp [encodePixels]
      have h2 : ([a] : List Nat).take (2 * (k + 1)) = [a] := by
        apply List.take_of_length_le
        simp
        omega
      rw [h1, h2]
      rfl
  | a :: b :: rest, k => by
    cases k with
    | zero => rfl
    | succ k =>
      have h2 : 2 * (k + 1) = 2 * k + 1 + 1 := by omega
      rw [h2]
      simp only [encodePixels, List.take_succ_cons]
      rw [encodePixels_take rest k]

theorem decode_encode : ∀ cs : List Nat, cs.length % 2 = 0 → (∀ c ∈ cs, c < 16) →
    (encodePixels cs).flatMap decodeByte = cs
  | [], _, _ => rfl
  | [_], he, _ => by simp at he
  | a :: b :: rest, he, hv => by
    have ha : a < 16 := hv a (by simp)
    have hb : b < 16 := hv b (by simp)
    have ihr := decode_encode rest (by simp at he; omega)
      (fun c hc => hv c (by simp [hc]))
    simp only [encodePixels, List.flatMap_cons, nibble_pack_unpack a ha b hb, ihr]
    rfl

/-- C1: for every payload of length at least 12 whose entries are bytes in
[0,255], header decoding returns exactly
`(payload[4] ||| payload[5] <<< 8) &&& 0x7FFF` — the little-endian 16-bit
value at offsets 4-5 masked to 15 bits — and every start line it returns is
at most 32767. -/
theorem c1_header_start_line (payload : List Nat)
    (hlen : 12 ≤ payload.length) (hbytes : ∀ b ∈ payload, b < 256) :
    decodeHeader payload =
      some ((payload.getD 4 0 ||| (payload.getD 5 0 <<< 8)) &&& 0x7FFF) ∧
    ∀ n, decodeHeader payload = some n → n ≤ 32767 := by
  have h4lt : 4 < payload.length := by omega
  have h4 : payload.getD 4 0 < 256 := by
    rw [List.getD_eq_getElem _ _ h4lt]
    exact hbytes _ (List.getElem_mem h4lt)
  constructor
  · simp only [decodeHeader, if_neg (by omega : ¬payload.length < 12)]
    rw [add_shiftLeft_eq_lor _ _ h4]
  · intro n hn
    simp only [decodeHeader, if_neg (by omega : ¬payload.length < 12),
      Option.some.injEq] at hn
    exact hn ▸ Nat.and_le_right

/-- C1 witness at a concrete 12-byte payload whose start-line bytes are
0x34 and 0x12. -/
theorem c1_header_start_line_witness :
    decodeHeader [0, 0, 0, 0, 0x34, 0x12, 0, 0, 0, 0, 0, 0] =
      some ((([0, 0, 0, 0, 0x34, 0x12, 0, 0, 0, 0, 0, 0] : List Nat).getD 4 0 |||
        (([0, 0, 0, 0, 0x34, 0x12, 0, 0, 0, 0, 0, 0] : List Nat).getD 5 0 <<< 8)) &&& 0x7FFF) ∧
    ∀ n, decodeHeader [0, 0, 0, 0, 0x34, 0x12, 0, 0, 0, 0, 0, 0] = some n → n ≤ 32767 :=
  c1_header_start_line _ (by decide) (by decide)

/-- C3: line selection matches exactly when
startLine ≤ targetLine < startLine + 4, and a match returns the in-packet
index targetLine - startLine, which is always below 4. -/
theorem c3_select_line (startLine targetLine : Nat) :
    ((selectLine startLine targetLine).isSome ↔
      startLine ≤ targetLine ∧ targetLine < startLine + 4) ∧
    ∀ k, selectLine startLine targetLine = some k →
      k = targetLine - startLine ∧ k < 4 := by
  simp only [selectLine, LINES_PER_PACKET]
  by_cases h : startLine ≤ targetLine ∧ targetLine < startLine + 4
  · simp only [if_pos h, Option.isSome_some, Option.some.injEq]
    refine ⟨by simp [h], ?_⟩
    intro k hk
    omega
  · simp only [if_neg h]
    refine ⟨by simp [h], ?_⟩
    intro k hk
    simp at hk

/-- C9: the byte 0xA5 decodes to the color indices [10, 5], and rendering
them through the palette gives the glyphs 'r' then 'G'. -/
theorem c9_a5_decode_render :
    decodeByte 0xA5 = [10, 5] ∧ render (decodeByte 0xA5) = ['r', 'G'] := by
  decide

/-- C6: every payload shorter than 12 bytes is rejected by header decoding,
renders nothing in the live driver, and is skipped by both main loops. -/
theorem c6_short_payload_rejected (payload : List Nat)
    (h : payload.length < 12) :
    decodeHeader payload = none ∧ print_middle_line payload = none ∧
    live_handle payload = none ∧ replay_handle payload = none := by
  have h' : ¬12 ≤ payload.length := by omega
  refine ⟨?_, ?_, ?_, ?_⟩
  · simp [decodeHeader, h]
  · simp [print_middle_line, h]
  · simp [live_handle, h']
  · simp [replay_handle, h']

/-- C6 witness at the concrete 3-byte payload [1, 2, 3]. -/
theorem c6_short_payload_rejected_witness :
    decodeHeader [1, 2, 3] = none ∧ print_middle_line [1, 2, 3] = none ∧
    live_handle [1, 2, 3] = none ∧ replay_handle [1, 2, 3] = none :=
  c6_short_payload_rejected _ (by decide)

/-- C2: for every pixel payload and in-packet line index below 4, line
decoding fails (InsufficientData) exactly when the line's byte range extends
past the payload, and a successful decode returns 2*BYTES_PER_LINE color
indices in byte order, pair j being the high then the low nibble of payload
byte lineIndex*BYTES_PER_LINE + j. -/
theorem c2_pixel_line_decode (pp : List Nat) (i : Nat) (_hi : i < 4) :
    (decodePixelLine pp i = none ↔
      pp.length < i * BYTES_PER_LINE + BYTES_PER_LINE) ∧
    ∀ cs, decodePixelLine pp i = some cs →
      cs.length = 2 * BYTES_PER_LINE ∧
      ∀ j, j < BYTES_PER_LINE →
        cs.getD (2 * j) 0 = pp.getD (i * BYTES_PER_LINE + j) 0 >>> 4 ∧
        cs.getD (2 * j + 1) 0 = pp.getD (i * BYTES_PER_LINE + j) 0 &&& 0xF := by
  constructor
  · unfold decodePixelLine
    by_cases hc : i * BYTES_PER_LINE + BYTES_PER_LINE > pp.length
    · simp only [if_pos hc]
      constructor
      · intro _; omega
      · intro _; trivial
    · simp only [if_neg hc]
      constructor
      · intro hx; exact absurd hx (by simp)
      · intro hx; omega
  · intro cs hcs
    unfold decodePixelLine at hcs
    by_cases hc : i * BYTES_PER_LINE + BYTES_PER_LINE > pp.length
    · rw [if_pos hc] at hcs
      exact absurd hcs (by simp)
    · rw [if_neg hc] at hcs
      injection hcs with hcs
      subst hcs
      have hslice :
          ((pp.drop (i * BYTES_PER_LINE)).take BYTES_PER_LINE).length = BYTES_PER_LINE := by
        simp only [List.length_take, List.length_drop]
        omega
      constructor
      · rw [flatMap_decodeByte_length, hslice]
      · intro j hj
        have h1 := flatMap_decodeByte_getD _ j (by rw [hslice]; exact hj)
        have h2 : ((pp.drop (i * BYTES_PER_LINE)).take BYTES_PER_LINE).getD j 0
            = pp.getD (i * BYTES_PER_LINE + j) 0 :=
          getD_drop_take pp _ _ j hj (by omega)
        rw [h2] at h1
        exact h1

/-- C2 witness at the concrete 192-byte all-zero pixel payload and line
index 0. -/
theorem c2_pixel_line_decode_witness :
    (decodePixelLine (List.replicate 192 0) 0 = none ↔
      (List.replicate 192 (0 : Nat)).length < 0 * BYTES_PER_LINE + BYTES_PER_LINE) ∧
    ∀ cs, decodePixelLine (List.replicate 192 0) 0 = some cs →
      cs.length = 2 * BYTES_PER_LINE ∧
      ∀ j, j < BYTES_PER_LINE →
        cs.getD (2 * j) 0 = (List.replicate 192 0 : List Nat).getD (0 * BYTES_PER_LINE + j) 0 >>> 4 ∧
        cs.getD (2 * j + 1) 0 =
          (List.replicate 192 0 : List Nat).getD (0 * BYTES_PER_LINE + j) 0 &&& 0xF :=
  c2_pixel_line_decode _ 0 (by decide)

/-- C7: a payload of exactly 12 bytes (empty pixel payload) yields no
renderable line: all four in-packet line decodes fail with InsufficientData,
the live driver prints nothing, and the four text lines the replay driver
prints carry no pixels. -/
theorem c7_exact_header_payload (payload : List Nat) (h : payload.length = 12) :
    (∀ i, i < LINES_PER_PACKET → decodePixelLine (payload.drop 12) i = none) ∧
    print_middle_line payload = none ∧
    (print_packet payload).length = 4 ∧
    ∀ line ∈ print_packet payload, line = [] := by
  have hnil : payload.drop 12 = [] := List.drop_eq_nil_of_le (by omega)
  refine ⟨?_, ?_, ?_, ?_⟩
  · intro i _
    rw [hnil]
    unfold decodePixelLine
    rw [if_pos (by simp [BYTES_PER_LINE])]
  · simp only [print_middle_line, if_neg (by omega : ¬payload.length < 12), hnil]
    split
    · rw [if_pos (by simp [BYTES_PER_LINE])]
    · rfl
  · simp [print_packet]
  · intro line hline
    simp only [print_packet, hnil, List.mem_map] at hline
    obtain ⟨k, _, hk⟩ := hline
    simp at hk
    exact hk

/-- C7 witness at the concrete all-zero 12-byte payload. -/
theorem c7_exact_header_payload_witness :
    (∀ i, i < LINES_PER_PACKET →
      decodePixelLine ((List.replicate 12 (0 : Nat)).drop 12) i = none) ∧
    print_middle_line (List.replicate 12 0) = none ∧
    (print_packet (List.replicate 12 0)).length = 4 ∧
    ∀ line ∈ print_packet (List.replicate 12 0), line = [] :=
  c7_exact_header_payload _ (by decide)

theorem rendered_slice_length (l : List Nat) (s n : Nat) (h : s + n ≤ l.length) :
    ((((l.drop s).take n).flatMap decodeByte).map glyph).length = 2 * n := by
  rw [List.length_map, flatMap_decodeByte_length]
  simp only [List.length_take, List.length_drop]
  omega

theorem rendered_mem_palette (cs : List Nat) :
    ∀ c ∈ (cs.flatMap decodeByte).map glyph, c ∈ vic_colors := by
  intro c hc
  rw [List.mem_map] at hc
  obtain ⟨i, _, rfl⟩ := hc
  exact glyph_mem i

theorem print_middle_line_some_shape (payload : List Nat) (s : List Char)
    (h : print_middle_line payload = some s) :
    s.length = 2 * BYTES_PER_LINE ∧ ∀ c ∈ s, c ∈ vic_colors := by
  simp only [print_middle_line] at h
  split_ifs at h with h1 h2 h3
  injection h with h'
  subst h'
  exact ⟨rendered_slice_length _ _ _ (by omega), rendered_mem_palette _⟩

/-- C10: whenever the live driver renders output for a datagram, it is the
single optional text line of print_middle_line, made of exactly
2 * BYTES_PER_LINE = 384 glyphs, each one of the 16 palette glyphs. -/
theorem c10_live_single_full_line (payload : List Nat) (s : List Char)
    (h : print_middle_line payload = some s) :
    s.length = 2 * BYTES_PER_LINE ∧ s.length = 384 ∧ ∀ c ∈ s, c ∈ vic_colors := by
  obtain ⟨hlen, hmem⟩ := print_middle_line_some_shape payload s h
  exact ⟨hlen, hlen.trans (by decide), hmem⟩

set_option maxRecDepth 100000 in
/-- C10 witness at a concrete datagram carrying start line 136 and 192 zero
pixel bytes; the rendered line is 384 spaces. -/
theorem c10_live_single_full_line_witness :
    (List.replicate 384 ' ').length = 2 * BYTES_PER_LINE ∧
    (List.replicate 384 ' ').length = 384 ∧
    ∀ c ∈ List.replicate 384 ' ', c ∈ vic_colors :=
  c10_live_single_full_line
    ([0, 0, 0, 0, 136, 0, 0, 0, 0, 0, 0, 0] ++ List.replicate 192 0)
    (List.replicate 384 ' ') (by decide)

/-- C5 counterexample: with the 62-byte all-zero payload (50 pixel bytes) the
replay driver prints 100 glyphs for line 0 — a truncated row, neither a
complete scanline at either per-line byte width nor nothing. -/
theorem c5_replay_truncated_row :
    ((print_packet (List.replicate 62 0)).getD 0 []).length = 100 ∧
    ¬(((print_packet (List.replicate 62 0)).getD 0 []).length = 2 * 96 ∨
      ((print_packet (List.replicate 62 0)).getD 0 []).length = 2 * BYTES_PER_LINE ∨
      ((print_packet (List.replicate 62 0)).getD 0 []).length = 0) := by
  decide

/-- C5 amended: the live driver never partially renders a scanline —
print_middle_line either prints nothing for a datagram or a complete line of
2 * BYTES_PER_LINE glyphs. -/
theorem c5_live_all_or_nothing (payload : List Nat) :
    print_middle_line payload = none ∨
    ∃ s, print_middle_line payload = some s ∧ s.length = 2 * BYTES_PER_LINE := by
  cases hp : print_middle_line payload with
  | none => exact Or.inl rfl
  | some s => exact Or.inr ⟨s, rfl, (print_middle_line_some_shape payload s hp).1⟩

set_option maxRecDepth 100000 in
/-- C4: the live driver decodes 192 = 384/2 bytes per scanline while the
replay driver slices a literal 96 bytes per scanline, and on a concrete
384-byte pixel payload — long enough for in-packet line 1 under both widths —
the two drivers extract different color sequences for line 1. -/
theorem c4_drivers_inconsistent_width :
    BYTES_PER_LINE = 384 / 2 ∧ BYTES_PER_LINE = 192 ∧ BYTES_PER_LINE = 2 * 96 ∧
    c4pixels.length = 2 * 192 ∧
    liveLineColors c4pixels 1 ≠ replayLineColors c4pixels 1 := by
  decide

/-- C8: round-trip — packing a sequence of color indices in [0,16) whose
length is an even multiple of the per-line byte width into nibble bytes, and
then decoding line i, returns exactly the corresponding chunk of the
original sequence; with a single line's worth of indices the entire original
sequence comes back. -/
theorem c8_encode_decode_roundtrip (cs : List Nat) (m : Nat)
    (hlen : cs.length = 2 * BYTES_PER_LINE * m) (hv : ∀ c ∈ cs, c < 16) :
    (∀ i, i < m → decodePixelLine (encodePixels cs) i =
      some ((cs.drop (2 * BYTES_PER_LINE * i)).take (2 * BYTES_PER_LINE))) ∧
    (m = 1 → decodePixelLine (encodePixels cs) 0 = some cs) := by
  have hB : BYTES_PER_LINE = 192 := rfl
  have henc : (encodePixels cs).length = BYTES_PER_LINE * m := by
    rw [encodePixels_length, hlen, hB]
    omega
  have main : ∀ i, i < m → decodePixelLine (encodePixels cs) i =
      some ((cs.drop (2 * BYTES_PER_LINE * i)).take (2 * BYTES_PER_LINE)) := by
    intro i hi
    have hguard : ¬i * BYTES_PER_LINE + BYTES_PER_LINE > (encodePixels cs).length := by
      rw [henc, hB]
      omega
    unfold decodePixelLine
    rw [if_neg hguard, encodePixels_drop, encodePixels_take]
    have hidx : 2 * (i * BYTES_PER_LINE) = 2 * BYTES_PER_LINE * i := by ring
    rw [hidx]
    have hchunk :
        ((cs.drop (2 * BYTES_PER_LINE * i)).take (2 * BYTES_PER_LINE)).length
          = 2 * BYTES_PER_LINE := by
      simp only [List.length_take, List.length_drop, hlen, hB]
      omega
    congr 1
    apply decode_encode
    · rw [hchunk, hB]
    · intro c hc
      exact hv c (List.drop_subset _ _ (List.take_subset _ _ hc))
  refine ⟨main, ?_⟩
  intro hm
  subst hm
  have h0 := main 0 (by omega)
  rw [h0]
  congr 1
  rw [Nat.mul_zero, List.drop_zero]
  exact List.take_of_length_le (by omega)

set_option maxRecDepth 100000 in
/-- C8 witness with one full live-driver line of color index 3
(384 indices, m = 1). -/
theorem c8_encode_decode_roundtrip_witness :
    (∀ i, i < 1 → decodePixelLine (encodePixels (List.replicate 384 3)) i =
      some (((List.replicate 384 3 : List Nat).drop (2 * BYTES_PER_LINE * i)).take
        (2 * BYTES_PER_LINE))) ∧
    (1 = 1 → decodePixelLine (encodePixels (List.replicate 384 3)) 0 =
      some (List.replicate 384 (3 : Nat))) :=
  c8_encode_decode_roundtrip _ 1 (by decide) (by decide)
